import Mathlib

set_option maxHeartbeats 1000000

/-!
Verification of the string-matching algorithms of `Task_03_Sadism.py`
(Boyer–Moore–Horspool, Knuth–Morris–Pratt, Rabin–Karp) and of the
binary-search upper-bound routine of `Task_02_binary_search.py`.

Texts and patterns are embedded as `List Char`; Python machine integers are
embedded as `Nat`/`Int` (Python integers are unbounded, and Python's `%` on a
positive modulus agrees with `Int.emod`).  The `while` loops of the source are
embedded as fuel-indexed recursions returning `Option` results, `none` meaning
the fuel bound was exhausted; the fuel bounds used by the top-level functions
are proved sufficient below, so the embedded functions compute exactly what
the Python functions compute.
-/

/-- Character of `s` at index `i`.  In the source every subscript `s[i]` is
taken with `i` in bounds, so the default is never reached there. -/
def charAt (s : List Char) (i : Nat) : Char := s.getD i 'A'

/-- `pattern` occurs in `text` at position `q`: the slice `text[q : q+m]`
(Python notation) equals `pattern`. -/
def occursAt (text pattern : List Char) (q : Nat) : Prop :=
  q + pattern.length ≤ text.length ∧ (text.drop q).take pattern.length = pattern

/-- `r` is the result of a leftmost-occurrence search over positions `≥ i`:
either `-1` with no occurrence at any position `≥ i`, or the least occurrence
position `≥ i`. -/
def FirstMatchFrom (text pattern : List Char) (i : Nat) (r : Int) : Prop :=
  (r = -1 ∧ ∀ k, i ≤ k → ¬ occursAt text pattern k) ∨
  (∃ q : Nat, r = (q : Int) ∧ i ≤ q ∧ occursAt text pattern q ∧
    ∀ k, i ≤ k → k < q → ¬ occursAt text pattern k)

theorem charAt_eq_getElem (s : List Char) (i : Nat) (h : i < s.length) :
    charAt s i = s[i] := by
  simp [charAt, List.getD_eq_getElem?_getD, List.getElem?_eq_getElem h]

theorem window_length {t : List Char} {i m : Nat} (h : i + m ≤ t.length) :
    ((t.drop i).take m).length = m := by
  simp [List.length_take, List.length_drop]
  omega

theorem window_eq_iff {t p : List Char} {i m : Nat} (hm : p.length = m)
    (hin : i + m ≤ t.length) :
    (t.drop i).take m = p ↔ ∀ k, k < m → charAt t (i + k) = charAt p k := by
  constructor
  · intro hw k hk
    subst hw
    have h1 : i + k < t.length := by omega
    have h2 : k < ((t.drop i).take m).length := by rw [window_length hin]; exact hk
    rw [charAt_eq_getElem t _ h1, charAt_eq_getElem _ _ h2]
    simp
  · intro hpt
    apply List.ext_getElem
    · rw [window_length hin, hm]
    · intro k hk1 hk2
      have hk : k < m := by rw [window_length hin] at hk1; exact hk1
      have h1 : i + k < t.length := by omega
      have := hpt k hk
      rw [charAt_eq_getElem t _ h1, charAt_eq_getElem p _ hk2] at this
      rw [List.getElem_take, List.getElem_drop]
      exact this

theorem occursAt_of_window {t p : List Char} {q : Nat} (hq : q ≤ t.length)
    (h : (t.drop q).take p.length = p) : occursAt t p q := by
  refine ⟨?_, h⟩
  have := congrArg List.length h
  simp only [List.length_take, List.length_drop] at this
  omega

theorem occursAt_iff {t p : List Char} {q : Nat} :
    occursAt t p q ↔
      q + p.length ≤ t.length ∧ ∀ k, k < p.length → charAt t (q + k) = charAt p k := by
  unfold occursAt
  constructor
  · rintro ⟨h1, h2⟩
    exact ⟨h1, (window_eq_iff rfl h1).mp h2⟩
  · rintro ⟨h1, h2⟩
    exact ⟨h1, (window_eq_iff rfl h1).mpr h2⟩

theorem FirstMatchFrom_unique {t p : List Char} {i : Nat} {r₁ r₂ : Int}
    (h1 : FirstMatchFrom t p i r₁) (h2 : FirstMatchFrom t p i r₂) : r₁ = r₂ := by
  rcases h1 with ⟨e1, n1⟩ | ⟨q1, e1, le1, o1, m1⟩
  · rcases h2 with ⟨e2, _⟩ | ⟨q2, e2, le2, o2, _⟩
    · rw [e1, e2]
    · exact absurd o2 (n1 q2 le2)
  · rcases h2 with ⟨e2, n2⟩ | ⟨q2, e2, le2, o2, m2⟩
    · exact absurd o1 (n2 q1 le1)
    · rw [e1, e2]
      congr 1
      by_contra hne
      rcases Nat.lt_or_ge q1 q2 with h | h
      · exact m2 q1 le1 h o1
      · rcases Nat.lt_or_ge q2 q1 with h' | h'
        · exact m1 q2 le2 h' o2
        · omega

/-- Reference search following the spec's words: a naive scan of the window
positions left to right, reporting the leftmost occurrence, `-1` when the
pattern does not occur.  `fuel` counts the remaining positions to inspect. -/
def naiveFrom (text pattern : List Char) : Nat → Nat → Int
  | 0, _ => -1
  | fuel + 1, i =>
    if (text.drop i).take pattern.length == pattern then (i : Int)
    else naiveFrom text pattern fuel (i + 1)

/-- Reference search over all window positions `0 .. n - m`. -/
def naive_search (text pattern : List Char) : Int :=
  naiveFrom text pattern (text.length - pattern.length + 1) 0

theorem naiveFrom_spec (t p : List Char) :
    ∀ (fuel i : Nat), i + fuel = t.length - p.length + 1 →
      FirstMatchFrom t p i (naiveFrom t p fuel i) := by
  intro fuel
  induction fuel with
  | zero =>
    intro i hf
    left
    refine ⟨rfl, ?_⟩
    intro k hk hocc
    have hlen := hocc.1
    omega
  | succ f ih =>
    intro i hf
    by_cases hw : (t.drop i).take p.length = p
    · right
      have hq : i ≤ t.length := by omega
      refine ⟨i, ?_, le_refl i, occursAt_of_window hq hw, ?_⟩
      · simp [naiveFrom, hw]
      · intro k hk hk'
        omega
    · have hstep : naiveFrom t p (f + 1) i = naiveFrom t p f (i + 1) := by
        simp [naiveFrom, hw]
      rw [hstep]
      have h2 : FirstMatchFrom t p (i + 1) (naiveFrom t p f (i + 1)) :=
        ih (i + 1) (by omega)
      rcases h2 with ⟨e2, n2⟩ | ⟨q, e2, le2, o2, m2⟩
      · left
        refine ⟨e2, ?_⟩
        intro k hk hocc
        rcases Nat.lt_or_ge k (i + 1) with h | h
        · have : k = i := by omega
          subst this
          exact hw hocc.2
        · exact n2 k h hocc
      · right
        refine ⟨q, e2, by omega, o2, ?_⟩
        intro k hk hk' hocc
        rcases Nat.lt_or_ge k (i + 1) with h | h
        · have : k = i := by omega
          subst this
          exact hw hocc.2
        · exact m2 k h hk' hocc

theorem naive_search_spec (t p : List Char) :
    FirstMatchFrom t p 0 (naive_search t p) :=
  naiveFrom_spec t p (t.length - p.length + 1) 0 (by omega)

/-! ### Boyer–Moore–Horspool (`boyer_moore_horspool` in `Task_03_Sadism.py`) -/

/-- The shift-dictionary construction loop of `boyer_moore_horspool`:
`for i, ch in enumerate(pattern[:-1]): shift[ch] = m - 1 - i`.  The dictionary
is embedded as a partial map `Char → Option Nat`; a later assignment to the
same character overwrites the earlier one. -/
def bmhShiftAux (m : Nat) : List Char → Nat → (Char → Option Nat) → (Char → Option Nat)
  | [], _, d => d
  | ch :: rest, i, d =>
    bmhShiftAux m rest (i + 1) (fun c => if c = ch then some (m - 1 - i) else d c)

/-- The completed Horspool shift dictionary for `pattern` (with `m` the length
of `pattern`): built from `pattern[:-1]`, indices starting at 0. -/
def bmhShift (pattern : List Char) (m : Nat) : Char → Option Nat :=
  bmhShiftAux m pattern.dropLast 0 (fun _ => none)

/-- The inner right-to-left comparison loop of `boyer_moore_horspool`
(`j = last; while j >= 0 and pattern[j] == text[i + j]: j -= 1`):
`true` iff `pattern[k] == text[i + k]` for every `k ≤ j`, i.e. iff the loop
ends with `j < 0`. -/
def bmhCheck (text pattern : List Char) (i : Nat) : Nat → Bool
  | 0 => charAt pattern 0 == charAt text i
  | j + 1 => (charAt pattern (j + 1) == charAt text (i + j + 1)) && bmhCheck text pattern i j

/-- The scanning loop of `boyer_moore_horspool`
(`while i <= n - m: ... i += shift.get(text[i + last], m)`).  `fuel` bounds
the number of loop-body iterations; `none` means the bound was exhausted. -/
def bmhLoop (text pattern : List Char) (n m : Nat) (shift : Char → Option Nat) :
    Nat → Nat → Option Int
  | 0, i => if i ≤ n - m then none else some (-1)
  | fuel + 1, i =>
    if i ≤ n - m then
      if bmhCheck text pattern i (m - 1) then some (i : Int)
      else
        bmhLoop text pattern n m shift fuel
          (i + (shift (charAt text (i + (m - 1)))).getD m)
    else some (-1)

/-- `boyer_moore_horspool(text, pattern)` from `Task_03_Sadism.py`.  The scan
is run with fuel `n - m + 1`, which is proved sufficient below. -/
def boyer_moore_horspool (text pattern : List Char) : Int :=
  let n := text.length
  let m := pattern.length
  if m = 0 then 0
  else if m > n then -1
  else (bmhLoop text pattern n m (bmhShift pattern m) (n - m + 1) 0).getD (-1)

theorem charAt_cons_zero (c : Char) (l : List Char) : charAt (c :: l) 0 = c := by
  simp [charAt]

theorem charAt_cons_succ (c : Char) (l : List Char) (k : Nat) :
    charAt (c :: l) (k + 1) = charAt l k := by
  simp [charAt]

theorem charAt_dropLast {l : List Char} {k : Nat} (h : k < l.length - 1) :
    charAt l.dropLast k = charAt l k := by
  have h1 : k < l.dropLast.length := by simp [List.length_dropLast]; omega
  have h2 : k < l.length := by omega
  rw [charAt_eq_getElem _ _ h1, charAt_eq_getElem _ _ h2, List.getElem_dropLast]

theorem bmhCheck_iff_pointwise (t p : List Char) (i : Nat) :
    ∀ j, bmhCheck t p i j = true ↔ ∀ k, k ≤ j → charAt p k = charAt t (i + k) := by
  intro j
  induction j with
  | zero =>
    simp only [bmhCheck, beq_iff_eq]
    constructor
    · intro h k hk
      have : k = 0 := by omega
      subst this
      simpa using h
    · intro h
      simpa using h 0 (le_refl 0)
  | succ j ih =>
    simp only [bmhCheck, Bool.and_eq_true, beq_iff_eq, ih]
    constructor
    · rintro ⟨h1, h2⟩ k hk
      rcases Nat.lt_or_ge k (j + 1) with h | h
      · exact h2 k (by omega)
      · have : k = j + 1 := by omega
        subst this
        simpa [Nat.add_assoc] using h1
    · intro h
      refine ⟨?_, fun k hk => h k (by omega)⟩
      simpa [Nat.add_assoc] using h (j + 1) (le_refl _)

theorem bmhCheck_window {t p : List Char} {i m : Nat} (hm : p.length = m)
    (h1 : 1 ≤ m) (hin : i + m ≤ t.length) :
    bmhCheck t p i (m - 1) = true ↔ (t.drop i).take m = p := by
  rw [bmhCheck_iff_pointwise, window_eq_iff hm hin]
  constructor
  · intro h k hk
    exact (h k (by omega)).symm
  · intro h k hk
    exact (h k (by omega)).symm

theorem bmhShiftAux_cases (m : Nat) :
    ∀ (l : List Char) (s : Nat) (d : Char → Option Nat) (c : Char),
      bmhShiftAux m l s d c = d c ∨
      ∃ k, k < l.length ∧ bmhShiftAux m l s d c = some (m - 1 - (s + k)) := by
  intro l
  induction l with
  | nil => intro s d c; left; rfl
  | cons ch rest ih =>
    intro s d c
    rcases ih (s + 1) (fun c' => if c' = ch then some (m - 1 - s) else d c') c with h | ⟨k, hk, h⟩
    · by_cases hc : c = ch
      · right
        refine ⟨0, by simp, ?_⟩
        rw [bmhShiftAux, h]
        simp [hc]
      · left
        rw [bmhShiftAux, h]
        simp [hc]
    · right
      refine ⟨k + 1, by simp; omega, ?_⟩
      rw [bmhShiftAux, h]
      congr 2
      omega

theorem bmhShiftAux_mem (m : Nat) :
    ∀ (l : List Char) (s : Nat) (d : Char → Option Nat) (c : Char) (k : Nat),
      k < l.length → charAt l k = c →
      ∃ k', k ≤ k' ∧ k' < l.length ∧ bmhShiftAux m l s d c = some (m - 1 - (s + k')) := by
  intro l
  induction l with
  | nil => intro s d c k hk; simp at hk
  | cons ch rest ih =>
    intro s d c k hk hc
    match k with
    | 0 =>
      rw [charAt_cons_zero] at hc
      rcases bmhShiftAux_cases m rest (s + 1)
          (fun c' => if c' = ch then some (m - 1 - s) else d c') c with h | ⟨k₂, hk₂, h⟩
      · refine ⟨0, le_refl 0, by simp, ?_⟩
        rw [bmhShiftAux, h]
        simp [hc]
      · refine ⟨k₂ + 1, by omega, by simp; omega, ?_⟩
        rw [bmhShiftAux, h]
        congr 2
        omega
    | k₁ + 1 =>
      rw [charAt_cons_succ] at hc
      have hk₁ : k₁ < rest.length := by simp at hk; omega
      rcases ih (s + 1) (fun c' => if c' = ch then some (m - 1 - s) else d c') c k₁ hk₁ hc
        with ⟨k₂, hle, hk₂, h⟩
      refine ⟨k₂ + 1, by omega, by simp; omega, ?_⟩
      rw [bmhShiftAux, h]
      congr 2
      omega

theorem bmhShiftAux_notmem (m : Nat) :
    ∀ (l : List Char) (s : Nat) (d : Char → Option Nat) (c : Char),
      (∀ k, k < l.length → charAt l k ≠ c) → bmhShiftAux m l s d c = d c := by
  intro l
  induction l with
  | nil => intro s d c _; rfl
  | cons ch rest ih =>
    intro s d c hno
    have hch : ¬ c = ch := by
      intro h
      exact hno 0 (by simp) (by rw [charAt_cons_zero, h])
    rw [bmhShiftAux, ih (s + 1) _ c (fun k hk hc =>
      hno (k + 1) (by simp; omega) (by rw [charAt_cons_succ]; exact hc))]
    simp [hch]

theorem bmhShift_ge_one {p : List Char} {m : Nat} (hm : p.length = m) (h1 : 1 ≤ m)
    (c : Char) : 1 ≤ (bmhShift p m c).getD m := by
  rcases bmhShiftAux_cases m p.dropLast 0 (fun _ => none) c with h | ⟨k, hk, h⟩
  · unfold bmhShift
    rw [h]
    simpa using h1
  · unfold bmhShift
    rw [h]
    simp only [Option.getD_some]
    have : k < m - 1 := by simp [List.length_dropLast] at hk; omega
    omega

theorem bmhShift_lt {p : List Char} {m : Nat} (hm : p.length = m) (h1 : 1 ≤ m)
    {c : Char} {k : Nat} (hk : k < m - 1) (hc : charAt p k = c) :
    (bmhShift p m c).getD m ≤ m - 1 - k := by
  have hk' : k < p.dropLast.length := by simp [List.length_dropLast]; omega
  have hc' : charAt p.dropLast k = c := by rw [charAt_dropLast (by omega)]; exact hc
  rcases bmhShiftAux_mem m p.dropLast 0 (fun _ => none) c k hk' hc' with ⟨k', hle, hk₂, h⟩
  unfold bmhShift
  rw [h]
  simp only [Option.getD_some]
  omega

theorem bmh_skip {t p : List Char} {n m i d : Nat} (hm : p.length = m) (h1 : 1 ≤ m)
    (hn : n = t.length) (hi : i + m ≤ n) (hd : 1 ≤ d)
    (hlt : d < (bmhShift p m (charAt t (i + (m - 1)))).getD m) :
    ¬ occursAt t p (i + d) := by
  intro hocc
  set c := charAt t (i + (m - 1)) with hc
  -- the lookup value is at most `m`
  have hdm : d < m := by
    rcases bmhShiftAux_cases m p.dropLast 0 (fun _ => none) c with h | ⟨k, hk, h⟩
    · unfold bmhShift at hlt
      rw [h] at hlt
      simpa using hlt
    · unfold bmhShift at hlt
      rw [h] at hlt
      simp only [Option.getD_some] at hlt
      omega
  have hpt := (occursAt_iff.mp hocc).2
  have hk0 : m - 1 - d < p.length := by omega
  have heq : charAt p (m - 1 - d) = c := by
    have := hpt (m - 1 - d) (by omega)
    rw [← this]
    congr 1
    omega
  have := bmhShift_lt hm h1 (by omega : m - 1 - d < m - 1) heq
  omega

theorem bmhLoop_spec {t p : List Char} {n m : Nat} (hm : p.length = m) (h1 : 1 ≤ m)
    (hn : n = t.length) (hmn : m ≤ n) :
    ∀ (fuel i : Nat), n - m + 1 ≤ i + fuel →
      ∃ r, bmhLoop t p n m (bmhShift p m) fuel i = some r ∧ FirstMatchFrom t p i r := by
  intro fuel
  induction fuel with
  | zero =>
    intro i hf
    have hgt : ¬ i ≤ n - m := by omega
    refine ⟨-1, by simp [bmhLoop, hgt], ?_⟩
    left
    refine ⟨rfl, ?_⟩
    intro k hk hocc
    have := hocc.1
    omega
  | succ f ih =>
    intro i hf
    by_cases hle : i ≤ n - m
    · have hiwin : i + m ≤ t.length := by omega
      by_cases hchk : bmhCheck t p i (m - 1) = true
      · refine ⟨(i : Int), by simp [bmhLoop, hle, hchk], ?_⟩
        right
        have hw : (t.drop i).take m = p := (bmhCheck_window hm h1 hiwin).mp hchk
        refine ⟨i, rfl, le_refl i, ?_, fun k hk hk' => by omega⟩
        exact occursAt_of_window (by omega) (by rw [hm]; exact hw)
      · have hstep : 1 ≤ (bmhShift p m (charAt t (i + (m - 1)))).getD m :=
          bmhShift_ge_one hm h1 _
        rcases ih (i + (bmhShift p m (charAt t (i + (m - 1)))).getD m) (by omega)
          with ⟨r, hr, hfm⟩
        refine ⟨r, ?_, ?_⟩
        · simp only [bmhLoop, hle, if_true, hchk, if_false]
          exact hr
        · have hnotocc : ¬ occursAt t p i := by
            intro hocc
            have hw2 := hocc.2
            rw [hm] at hw2
            exact hchk ((bmhCheck_window hm h1 hiwin).mpr hw2)
          have hrange : ∀ k, i ≤ k →
              k < i + (bmhShift p m (charAt t (i + (m - 1)))).getD m →
              ¬ occursAt t p k := by
            intro k hk hk'
            rcases Nat.eq_or_lt_of_le hk with h | h
            · rw [← h]; exact hnotocc
            · have : k = i + (k - i) := by omega
              rw [this]
              exact bmh_skip hm h1 hn (by omega) (by omega) (by omega)
          rcases hfm with ⟨e2, n2⟩ | ⟨q, e2, le2, o2, m2⟩
          · left
            refine ⟨e2, ?_⟩
            intro k hk hocc
            rcases Nat.lt_or_ge k (i + (bmhShift p m (charAt t (i + (m - 1)))).getD m)
              with h | h
            · exact hrange k hk h hocc
            · exact n2 k h hocc
          · right
            refine ⟨q, e2, by omega, o2, ?_⟩
            intro k hk hk' hocc
            rcases Nat.lt_or_ge k (i + (bmhShift p m (charAt t (i + (m - 1)))).getD m)
              with h | h
            · exact hrange k hk h hocc
            · exact m2 k h hk' hocc
    · refine ⟨-1, by simp [bmhLoop, hle], ?_⟩
      left
      refine ⟨rfl, ?_⟩
      intro k hk hocc
      have := hocc.1
      omega

theorem boyer_moore_horspool_spec (t p : List Char) :
    FirstMatchFrom t p 0 (boyer_moore_horspool t p) := by
  unfold boyer_moore_horspool
  by_cases hm0 : p.length = 0
  · simp only [hm0, if_true]
    right
    refine ⟨0, rfl, le_refl 0, ?_, fun k hk hk' => by omega⟩
    rw [List.length_eq_zero] at hm0
    subst hm0
    exact ⟨by simp, by simp⟩
  · by_cases hmn : p.length > t.length
    · simp only [hm0, if_false, hmn, if_true]
      left
      refine ⟨rfl, ?_⟩
      intro k hk hocc
      have := hocc.1
      omega
    · simp only [hm0, if_false, hmn]
      have h1 : 1 ≤ p.length := by omega
      have h2 : p.length ≤ t.length := by omega
      rcases bmhLoop_spec (t := t) (p := p) rfl h1 rfl h2
        (t.length - p.length + 1) 0 (by omega) with ⟨r, hr, hfm⟩
      rw [hr]
      exact hfm

theorem boyer_moore_horspool_eq_naive (t p : List Char) :
    boyer_moore_horspool t p = naive_search t p :=
  FirstMatchFrom_unique (boyer_moore_horspool_spec t p) (naive_search_spec t p)

/-! ### Knuth–Morris–Pratt (`kmp_search` in `Task_03_Sadism.py`) -/

/-- The LPS-table construction loop of `kmp_search`
(`while i < m: if pattern[i] == pattern[length]: ... else: ...`), embedded with
a fuel bound on the number of loop-body iterations (`none` = exhausted). -/
def lpsLoop (pattern : List Char) (m : Nat) :
    Nat → List Nat → Nat → Nat → Option (List Nat)
  | 0, lps, _, i => if i < m then none else some lps
  | fuel + 1, lps, len, i =>
    if i < m then
      if charAt pattern i == charAt pattern len then
        lpsLoop pattern m fuel (lps.set i (len + 1)) (len + 1) (i + 1)
      else if len ≠ 0 then
        lpsLoop pattern m fuel lps (lps.getD (len - 1) 0) i
      else
        lpsLoop pattern m fuel (lps.set i 0) len (i + 1)
    else some lps

/-- The table `lps` built inside `kmp_search`: starts from `[0] * m`,
`length = 0`, `i = 1`.  Fuel `2 * m` is proved sufficient below. -/
def kmpLps (pattern : List Char) : Option (List Nat) :=
  lpsLoop pattern pattern.length (2 * pattern.length)
    (List.replicate pattern.length 0) 0 1

/-- The scanning loop of `kmp_search` (`while i < n: ...`), embedded with a
fuel bound on the number of loop-body iterations. -/
def kmpLoop (text pattern : List Char) (n m : Nat) (lps : List Nat) :
    Nat → Nat → Nat → Option Int
  | 0, i, _ => if i < n then none else some (-1)
  | fuel + 1, i, j =>
    if i < n then
      if charAt text i == charAt pattern j then
        if j + 1 = m then some ((i + 1 : Int) - (j + 1 : Int))
        else kmpLoop text pattern n m lps fuel (i + 1) (j + 1)
      else if j ≠ 0 then
        kmpLoop text pattern n m lps fuel i (lps.getD (j - 1) 0)
      else
        kmpLoop text pattern n m lps fuel (i + 1) j
    else some (-1)

/-- `kmp_search(text, pattern)` from `Task_03_Sadism.py`.  Fuel `2 * n + 1`
for the scan is proved sufficient below, as is fuel `2 * m` for the table. -/
def kmp_search (text pattern : List Char) : Int :=
  let n := text.length
  let m := pattern.length
  if m = 0 then 0
  else if m > n then -1
  else
    match kmpLps pattern with
    | none => -1
    | some lps => (kmpLoop text pattern n m lps (2 * n + 1) 0 0).getD (-1)

theorem getD_set_eq {l : List Nat} {i v : Nat} (h : i < l.length) :
    (l.set i v).getD i 0 = v := by
  simp [List.getD_eq_getElem?_getD, List.getElem?_set_self h]

theorem getD_set_ne {l : List Nat} {i k v : Nat} (h : k ≠ i) :
    (l.set i v).getD k 0 = l.getD k 0 := by
  simp [List.getD_eq_getElem?_getD, List.getElem?_set_ne (by omega : i ≠ k)]

/-- `b` is a proper border length of the prefix `pattern[0 .. t-1]`: `b < t`
and the first `b` characters coincide with the last `b` characters of that
prefix. -/
def IsBorder (p : List Char) (t b : Nat) : Prop :=
  b < t ∧ ∀ k, k < b → charAt p k = charAt p (t - b + k)

/-- `v` is the length of the longest proper prefix of `pattern[0 .. k]` that
is also a suffix of it: the prefix-function value at position `k`. -/
def LpsSpec (p : List Char) (k v : Nat) : Prop :=
  IsBorder p (k + 1) v ∧ ∀ b, IsBorder p (k + 1) b → b ≤ v

theorem IsBorder_zero {p : List Char} {t : Nat} (h : 0 < t) : IsBorder p t 0 :=
  ⟨h, fun k hk => by omega⟩

theorem IsBorder_succ_iff {p : List Char} {t b : Nat} :
    IsBorder p (t + 1) (b + 1) ↔ IsBorder p t b ∧ charAt p b = charAt p t := by
  constructor
  · rintro ⟨hb, hpt⟩
    have hb' : b < t := by omega
    refine ⟨⟨hb', fun k hk => ?_⟩, ?_⟩
    · have := hpt k (by omega)
      have harith : t + 1 - (b + 1) + k = t - b + k := by omega
      rwa [harith] at this
    · have := hpt b (by omega)
      have harith : t + 1 - (b + 1) + b = t := by omega
      rwa [harith] at this
  · rintro ⟨⟨hb, hpt⟩, hlast⟩
    refine ⟨by omega, fun k hk => ?_⟩
    have harith : t + 1 - (b + 1) + k = t - b + k := by omega
    rw [harith]
    rcases Nat.lt_or_ge k b with h | h
    · exact hpt k h
    · have hkb : k = b := by omega
      rw [hkb]
      have harith2 : t - b + b = t := by omega
      rw [harith2]
      exact hlast

theorem IsBorder_trans {p : List Char} {t c b : Nat}
    (h1 : IsBorder p t c) (h2 : IsBorder p c b) : IsBorder p t b := by
  obtain ⟨hc, hptc⟩ := h1
  obtain ⟨hb, hpcb⟩ := h2
  refine ⟨by omega, fun k hk => ?_⟩
  have e1 := hpcb k hk
  have e2 := hptc (c - b + k) (by omega)
  have harith : t - c + (c - b + k) = t - b + k := by omega
  rw [harith] at e2
  rw [e1, ← e2]

theorem IsBorder_of_lt {p : List Char} {t c b : Nat}
    (h1 : IsBorder p t b) (h2 : IsBorder p t c) (hbc : b < c) : IsBorder p c b := by
  obtain ⟨hb, hptb⟩ := h1
  obtain ⟨hc, hptc⟩ := h2
  refine ⟨hbc, fun k hk => ?_⟩
  have e1 := hptb k hk
  have e2 := hptc (c - b + k) (by omega)
  have harith : t - c + (c - b + k) = t - b + k := by omega
  rw [harith] at e2
  rw [e1, ← e2]

/-- The loop-head invariant of the LPS-construction loop of `kmp_search`,
with `lps` the current table, `len` the running candidate border length and
`i` the current position. -/
def LpsInv (p : List Char) (m : Nat) (lps : List Nat) (len i : Nat) : Prop :=
  lps.length = m ∧ 1 ≤ i ∧ i ≤ m ∧ len < i ∧ IsBorder p i len ∧
  (∀ k, k < i → LpsSpec p k (lps.getD k 0)) ∧
  (∀ b, IsBorder p (i + 1) b → b ≤ len + 1)

theorem lpsLoop_spec (p : List Char) (m : Nat) :
    ∀ (fuel : Nat) (lps : List Nat) (len i : Nat),
      LpsInv p m lps len i → 2 * (m - i) + len + 1 ≤ fuel →
      ∃ lps', lpsLoop p m fuel lps len i = some lps' ∧ lps'.length = m ∧
        ∀ k, k < m → LpsSpec p k (lps'.getD k 0) := by
  intro fuel
  induction fuel with
  | zero =>
    intro lps len i _ hfuel
    omega
  | succ f ih =>
    intro lps len i hinv hfuel
    obtain ⟨hlen, hi1, him, hlti, hbord, hspec, hcand⟩ := hinv
    by_cases hin : i < m
    · by_cases hc : charAt p i = charAt p len
      · -- match branch: extend the border
        have hmax : LpsSpec p i (len + 1) := by
          refine ⟨?_, hcand⟩
          rw [IsBorder_succ_iff]
          exact ⟨hbord, hc.symm⟩
        have hinv' : LpsInv p m (lps.set i (len + 1)) (len + 1) (i + 1) := by
          refine ⟨by simp [hlen], by omega, by omega, by omega, hmax.1, ?_, ?_⟩
          · intro k hk
            rcases Nat.lt_or_ge k i with h | h
            · rw [getD_set_ne (by omega)]
              exact hspec k h
            · have : k = i := by omega
              subst this
              rw [getD_set_eq (by omega)]
              exact hmax
          · intro b hb
            match b with
            | 0 => omega
            | b' + 1 =>
              rw [IsBorder_succ_iff] at hb
              have := hmax.2 b' hb.1
              omega
        have hstep : lpsLoop p m (f + 1) lps len i
            = lpsLoop p m f (lps.set i (len + 1)) (len + 1) (i + 1) := by
          simp [lpsLoop, hin, hc]
        rw [hstep]
        exact ih _ _ _ hinv' (by omega)
      · by_cases hlz : len = 0
        · -- mismatch with zero candidate: record 0 and advance
          subst hlz
          have hmax : LpsSpec p i 0 := by
            refine ⟨IsBorder_zero (by omega), ?_⟩
            intro b hb
            match b with
            | 0 => omega
            | b' + 1 =>
              rw [IsBorder_succ_iff] at hb
              have hble := hcand (b' + 1) (by rw [IsBorder_succ_iff]; exact hb)
              have : b' = 0 := by omega
              subst this
              exact absurd hb.2.symm hc
          have hinv' : LpsInv p m (lps.set i 0) 0 (i + 1) := by
            refine ⟨by simp [hlen], by omega, by omega, by omega,
              IsBorder_zero (by omega), ?_, ?_⟩
            · intro k hk
              rcases Nat.lt_or_ge k i with h | h
              · rw [getD_set_ne (by omega)]
                exact hspec k h
              · have : k = i := by omega
                subst this
                rw [getD_set_eq (by omega)]
                exact hmax
            · intro b hb
              match b with
              | 0 => omega
              | b' + 1 =>
                rw [IsBorder_succ_iff] at hb
                have := hmax.2 b' hb.1
                omega
          have hstep : lpsLoop p m (f + 1) lps 0 i
              = lpsLoop p m f (lps.set i 0) 0 (i + 1) := by
            simp [lpsLoop, hin, hc]
          rw [hstep]
          exact ih _ _ _ hinv' (by omega)
        · -- mismatch with nonzero candidate: fall back through the table
          have hspecl := hspec (len - 1) (by omega)
          have hlb : IsBorder p len (lps.getD (len - 1) 0) := by
            have := hspecl.1
            have harith : len - 1 + 1 = len := by omega
            rwa [harith] at this
          have hinv' : LpsInv p m lps (lps.getD (len - 1) 0) i := by
            refine ⟨hlen, hi1, him, by have := hlb.1; omega,
              IsBorder_trans hbord hlb, hspec, ?_⟩
            intro b hb
            match b with
            | 0 => omega
            | b' + 1 =>
              rw [IsBorder_succ_iff] at hb
              have hble : b' + 1 ≤ len + 1 :=
                hcand (b' + 1) (by rw [IsBorder_succ_iff]; exact hb)
              have hblt : b' < len := by
                rcases Nat.lt_or_ge b' len with h | h
                · exact h
                · have : b' = len := by omega
                  subst this
                  exact absurd hb.2.symm hc
              rcases Nat.eq_zero_or_pos b' with h0 | h0
              · omega
              · have hbb : IsBorder p len b' :=
                  IsBorder_of_lt hb.1 hbord hblt
                have harith : len - 1 + 1 = len := by omega
                have := hspecl.2 b' (by rwa [harith])
                omega
          have hstep : lpsLoop p m (f + 1) lps len i
              = lpsLoop p m f lps (lps.getD (len - 1) 0) i := by
            simp [lpsLoop, hin, hc, hlz]
          rw [hstep]
          have hfall : lps.getD (len - 1) 0 < len := hlb.1
          exact ih _ _ _ hinv' (by omega)
    · -- loop exit: i = m
      have him' : i = m := by omega
      refine ⟨lps, by simp [lpsLoop, hin], hlen, ?_⟩
      intro k hk
      exact hspec k (by omega)

theorem kmpLps_spec (p : List Char) (h1 : 1 ≤ p.length) :
    ∃ lps, kmpLps p = some lps ∧ lps.length = p.length ∧
      ∀ k, k < p.length → LpsSpec p k (lps.getD k 0) := by
  have hinv : LpsInv p p.length (List.replicate p.length 0) 0 1 := by
    refine ⟨by simp, le_refl 1, h1, by omega, IsBorder_zero (by omega), ?_, ?_⟩
    · intro k hk
      have hk0 : k = 0 := by omega
      subst hk0
      have hpos : 0 < p.length := by omega
      have hg : (List.replicate p.length 0).getD 0 0 = 0 := by
        simp [List.getD_eq_getElem?_getD, List.getElem?_replicate, hpos]
      rw [hg]
      refine ⟨IsBorder_zero (by omega), ?_⟩
      intro b hb
      have := hb.1
      omega
    · intro b hb
      have := hb.1
      omega
  exact lpsLoop_spec p p.length (2 * p.length) _ 0 1 hinv (by omega)

theorem kmpLoop_spec {t p : List Char} {n m : Nat} {lps : List Nat}
    (hn : n = t.length) (hm : m = p.length) (h1 : 1 ≤ m) (hmn : m ≤ n)
    (hlps : ∀ k, k < m → LpsSpec p k (lps.getD k 0)) :
    ∀ (fuel i j : Nat),
      j < m → j ≤ i → i ≤ n →
      (∀ k, k < j → charAt t (i - j + k) = charAt p k) →
      (∀ q, q < i - j → ¬ occursAt t p q) →
      2 * (n - i) + j + 1 ≤ fuel →
      ∃ r, kmpLoop t p n m lps fuel i j = some r ∧ FirstMatchFrom t p 0 r := by
  intro fuel
  induction fuel with
  | zero =>
    intro i j _ _ _ _ _ hfuel
    omega
  | succ f ih =>
    intro i j hjm hji hin hmatch hleft hfuel
    by_cases hlt : i < n
    · by_cases hc : charAt t i = charAt p j
      · by_cases hjm1 : j + 1 = m
        · -- full pattern consumed: report the match at i - j
          have hocc : occursAt t p (i - j) := by
            rw [occursAt_iff]
            constructor
            · omega
            · intro k hk
              rcases Nat.lt_or_ge k j with h | h
              · exact hmatch k h
              · have hkj : k = j := by rw [← hm] at hk; omega
                rw [hkj]
                have harith : i - j + j = i := by omega
                rw [harith]
                exact hc
          refine ⟨((i : Int) + 1) - ((j : Int) + 1), ?_, ?_⟩
          · simp [kmpLoop, hlt, hc, hjm1]
          · right
            refine ⟨i - j, by omega, by omega, hocc, ?_⟩
            intro k _ hk
            exact hleft k hk
        · -- advance both indices
          have hmatch' : ∀ k, k < j + 1 → charAt t (i + 1 - (j + 1) + k) = charAt p k := by
            intro k hk
            have harith : i + 1 - (j + 1) + k = i - j + k := by omega
            rw [harith]
            rcases Nat.lt_or_ge k j with h | h
            · exact hmatch k h
            · have hkj : k = j := by omega
              rw [hkj]
              have harith2 : i - j + j = i := by omega
              rw [harith2]
              exact hc
          have hleft' : ∀ q, q < i + 1 - (j + 1) → ¬ occursAt t p q := by
            intro q hq
            exact hleft q (by omega)
          rcases ih (i + 1) (j + 1) (by omega) (by omega) (by omega)
            hmatch' hleft' (by omega) with ⟨r, hr, hfm⟩
          refine ⟨r, ?_, hfm⟩
          simp only [kmpLoop, hlt, if_true, hc, if_true, hjm1, if_false]
          rw [← hr]
          simp [hc]
      · by_cases hjz : j = 0
        · -- mismatch at pattern start: advance the text index
          subst hjz
          have hleft' : ∀ q, q < i + 1 - 0 → ¬ occursAt t p q := by
            intro q hq
            rcases Nat.lt_or_ge q i with h | h
            · exact hleft q (by omega)
            · have hqi : q = i := by omega
              subst hqi
              intro hocc
              have h0 := (occursAt_iff.mp hocc).2 0 (by omega)
              rw [Nat.add_zero] at h0
              exact hc h0
          rcases ih (i + 1) 0 (by omega) (by omega) (by omega)
            (fun k hk => by omega) hleft' (by omega) with ⟨r, hr, hfm⟩
          refine ⟨r, ?_, hfm⟩
          have hstep : kmpLoop t p n m lps (f + 1) i 0
              = kmpLoop t p n m lps f (i + 1) 0 := by
            simp [kmpLoop, hlt, hc]
          rw [hstep]
          exact hr
        · -- mismatch inside the pattern: fall back through the LPS table
          have hspecl := hlps (j - 1) (by omega)
          have hjb : IsBorder p j (lps.getD (j - 1) 0) := by
            have := hspecl.1
            have harith : j - 1 + 1 = j := by omega
            rwa [harith] at this
          set j' := lps.getD (j - 1) 0 with hj'
          have hj'j : j' < j := hjb.1
          have hmatch' : ∀ k, k < j' → charAt t (i - j' + k) = charAt p k := by
            intro k hk
            have hb := hjb.2 k hk
            have hm2 := hmatch (j - j' + k) (by omega)
            have harith : i - j + (j - j' + k) = i - j' + k := by omega
            rw [harith] at hm2
            rw [hm2, ← hb]
          have hleft' : ∀ q, q < i - j' → ¬ occursAt t p q := by
            intro q hq hocc
            rcases Nat.lt_or_ge q (i - j) with h | h
            · exact hleft q h hocc
            · rcases Nat.eq_or_lt_of_le h with h' | h'
              · -- q = i - j: contradicts the current mismatch
                have hj0 := (occursAt_iff.mp hocc).2 j (by omega)
                rw [← h'] at hj0
                have harith : i - j + j = i := by omega
                rw [harith] at hj0
                exact hc hj0
              · -- i - j < q < i - j': a longer border than lps[j-1] would exist
                have hb : IsBorder p j (i - q) := by
                  refine ⟨by omega, ?_⟩
                  intro k hk
                  have hocck := (occursAt_iff.mp hocc).2 k (by rw [← hm]; omega)
                  have hm2 := hmatch (j - (i - q) + k) (by omega)
                  have harith : i - j + (j - (i - q) + k) = q + k := by omega
                  rw [harith] at hm2
                  rw [← hocck, hm2]
                have hble := hspecl.2 (i - q) (by
                  have harith : j - 1 + 1 = j := by omega
                  rwa [harith])
                omega
          rcases ih i j' (by omega) (by omega) (by omega)
            hmatch' hleft' (by omega) with ⟨r, hr, hfm⟩
          refine ⟨r, ?_, hfm⟩
          have hstep : kmpLoop t p n m lps (f + 1) i j
              = kmpLoop t p n m lps f i (lps.getD (j - 1) 0) := by
            simp [kmpLoop, hlt, hc, hjz]
          rw [hstep, ← hj']
          exact hr
    · -- text exhausted: no occurrence anywhere
      refine ⟨-1, by simp [kmpLoop, hlt], ?_⟩
      left
      refine ⟨rfl, ?_⟩
      intro k _ hocc
      have hlen := hocc.1
      have : k < i - j := by rw [← hm] at hlen; omega
      exact hleft k this hocc

theorem kmp_search_spec (t p : List Char) :
    FirstMatchFrom t p 0 (kmp_search t p) := by
  unfold kmp_search
  by_cases hm0 : p.length = 0
  · simp only [hm0, if_true]
    right
    refine ⟨0, rfl, le_refl 0, ?_, fun k hk hk' => by omega⟩
    rw [List.length_eq_zero] at hm0
    subst hm0
    exact ⟨by simp, by simp⟩
  · by_cases hmn : p.length > t.length
    · simp only [hm0, if_false, hmn, if_true]
      left
      refine ⟨rfl, ?_⟩
      intro k hk hocc
      have := hocc.1
      omega
    · simp only [hm0, if_false, hmn]
      rcases kmpLps_spec p (by omega) with ⟨lps, hlps, hlen, hspec⟩
      rw [hlps]
      have hone : (1 : Nat) ≤ p.length := by omega
      have hle : p.length ≤ t.length := by omega
      rcases kmpLoop_spec (t := t) (p := p) (n := t.length) (m := p.length)
        rfl rfl hone hle hspec
        (2 * t.length + 1) 0 0 (by omega) (le_refl 0) (by omega)
        (fun k hk => absurd hk (by omega)) (fun q hq => absurd hq (by omega))
        (by omega) with ⟨r, hr, hfm⟩
      simpa [hr] using hfm

theorem kmp_search_eq_naive (t p : List Char) :
    kmp_search t p = naive_search t p :=
  FirstMatchFrom_unique (kmp_search_spec t p) (naive_search_spec t p)

/-! ### Rabin–Karp (`rabin_karp_search` in `Task_03_Sadism.py`) -/

/-- The modular Horner evaluation used for `p_hash` and `t_hash`:
`h = (h * base + ord(c)) % mod` over the characters of `l`, starting at 0. -/
def polyHash (base md : Int) (l : List Char) : Int :=
  l.foldl (fun acc c => (acc * base + (c.toNat : Int)) % md) 0

/-- The same Horner evaluation without the modulus reduction. -/
def polyVal (base : Int) (l : List Char) : Int :=
  l.foldl (fun acc c => acc * base + (c.toNat : Int)) 0

/-- The rolling-hash update of `rabin_karp_search` for window position `i`:
`t_hash = (t_hash - ord(text[i]) * h) % mod` followed by
`t_hash = (t_hash * base + ord(text[i + m])) % mod`. -/
def rkRoll (text : List Char) (m : Nat) (base md h : Int) (i : Nat) (tHash : Int) : Int :=
  ((tHash - ((charAt text i).toNat : Int) * h) % md * base
    + ((charAt text (i + m)).toNat : Int)) % md

/-- The window-scanning loop of `rabin_karp_search`
(`for i in range(n - m + 1): ...`): return `i` when the hashes agree and the
direct comparison `text[i : i+m] == pattern` confirms, else roll the hash
(only while `i < n - m`) and continue.  `count` is the exact number of
remaining window positions. -/
def rkLoop (text pattern : List Char) (n m : Nat) (base md pHash h : Int) :
    Nat → Nat → Int → Int
  | 0, _, _ => -1
  | count + 1, i, tHash =>
    if pHash == tHash && ((text.drop i).take m == pattern) then (i : Int)
    else
      rkLoop text pattern n m base md pHash h count (i + 1)
        (if i < n - m then rkRoll text m base md h i tHash else tHash)

/-- `rabin_karp_search(text, pattern, base=256, mod=1_000_000_007)` from
`Task_03_Sadism.py`.  `h = pow(base, m - 1, mod)`. -/
def rabin_karp_search (text pattern : List Char)
    (base : Int := 256) (md : Int := 1000000007) : Int :=
  let n := text.length
  let m := pattern.length
  if m = 0 then 0
  else if m > n then -1
  else
    rkLoop text pattern n m base md (polyHash base md pattern)
      ((base ^ (m - 1)) % md) (n - m + 1) 0 (polyHash base md (text.take m))

theorem polyHash_aux (base md : Int) (l : List Char) :
    ∀ a : Int,
      l.foldl (fun acc c => (acc * base + (c.toNat : Int)) % md) (a % md)
        = (l.foldl (fun acc c => acc * base + (c.toNat : Int)) a) % md := by
  induction l with
  | nil => intro a; rfl
  | cons c l ih =>
    intro a
    have hstep : ((a % md) * base + ((c.toNat : Nat) : Int)) % md
        = (a * base + ((c.toNat : Nat) : Int)) % md := by
      have h1 : Int.ModEq md (a % md) a := Int.emod_emod_of_dvd a dvd_rfl
      exact Int.ModEq.add_right _ (Int.ModEq.mul_right base h1)
    simp only [List.foldl_cons]
    rw [hstep]
    exact ih (a * base + (c.toNat : Int))

theorem polyHash_eq_polyVal (base md : Int) (l : List Char) :
    polyHash base md l = polyVal base l % md := by
  have := polyHash_aux base md l 0
  unfold polyHash polyVal
  rwa [Int.zero_emod] at this

theorem polyVal_shift (base : Int) (l : List Char) :
    ∀ a : Int,
      l.foldl (fun acc c => acc * base + (c.toNat : Int)) a
        = a * base ^ l.length + l.foldl (fun acc c => acc * base + (c.toNat : Int)) 0 := by
  induction l with
  | nil => intro a; simp
  | cons c l ih =>
    intro a
    simp only [List.foldl_cons, List.length_cons]
    rw [ih (a * base + (c.toNat : Int)), ih (0 * base + (c.toNat : Int))]
    ring

theorem polyVal_cons (base : Int) (c : Char) (l : List Char) :
    polyVal base (c :: l) = (c.toNat : Int) * base ^ l.length + polyVal base l := by
  unfold polyVal
  simp only [List.foldl_cons, zero_mul, zero_add]
  rw [polyVal_shift base l (c.toNat : Int)]

theorem polyVal_append_singleton (base : Int) (l : List Char) (c : Char) :
    polyVal base (l ++ [c]) = polyVal base l * base + (c.toNat : Int) := by
  unfold polyVal
  rw [List.foldl_append]
  rfl

theorem window_cons {t : List Char} {i m : Nat} (hi : i < t.length) (hm : 1 ≤ m) :
    (t.drop i).take m = charAt t i :: ((t.drop (i + 1)).take (m - 1)) := by
  rw [List.drop_eq_getElem_cons hi]
  match m, hm with
  | mm + 1, _ =>
    rw [List.take_succ_cons]
    rw [charAt_eq_getElem t i hi]
    rfl

theorem window_snoc {t : List Char} {i m : Nat} (hm : 1 ≤ m) (h : i + m ≤ t.length) :
    (t.drop i).take m = ((t.drop i).take (m - 1)) ++ [charAt t (i + (m - 1))] := by
  have hlt : m - 1 < (t.drop i).length := by simp [List.length_drop]; omega
  have hm1 : m = (m - 1) + 1 := by omega
  rw [hm1, List.take_succ, List.getElem?_eq_getElem hlt]
  congr 1
  rw [List.getElem_drop, charAt_eq_getElem t _ (by omega)]
  rfl

theorem rkRoll_correct {t : List Char} {m i : Nat} {base md h tH : Int}
    (hmd : 0 < md) (h1 : 1 ≤ m) (hh : h = base ^ (m - 1) % md)
    (him : i + m < t.length)
    (htH : tH = polyHash base md ((t.drop i).take m)) :
    rkRoll t m base md h i tH = polyHash base md ((t.drop (i + 1)).take m) := by
  set u := (t.drop (i + 1)).take (m - 1) with hu
  have hulen : u.length = m - 1 := by
    rw [hu]
    exact window_length (by omega)
  have hwi : (t.drop i).take m = charAt t i :: u :=
    window_cons (by omega) h1
  have hwi1 : (t.drop (i + 1)).take m = u ++ [charAt t (i + m)] := by
    have := window_snoc (t := t) (i := i + 1) (m := m) h1 (by omega)
    rw [← hu] at this
    have harith : i + 1 + (m - 1) = i + m := by omega
    rwa [harith] at this
  have hvi : polyVal base ((t.drop i).take m)
      = ((charAt t i).toNat : Int) * base ^ (m - 1) + polyVal base u := by
    rw [hwi, polyVal_cons, hulen]
  have hvi1 : polyVal base ((t.drop (i + 1)).take m)
      = polyVal base u * base + ((charAt t (i + m)).toNat : Int) := by
    rw [hwi1, polyVal_append_singleton]
  -- the rolled value is congruent to the next window's Horner value
  unfold rkRoll
  rw [htH, polyHash_eq_polyVal, polyHash_eq_polyVal]
  have hmne : md ≠ 0 := by omega
  have e1 : Int.ModEq md (polyVal base ((t.drop i).take m) % md)
      (polyVal base ((t.drop i).take m)) :=
    Int.emod_emod_of_dvd _ dvd_rfl
  have e2 : Int.ModEq md h (base ^ (m - 1)) := by
    rw [hh]
    exact Int.emod_emod_of_dvd _ dvd_rfl
  have e3 : Int.ModEq md
      (polyVal base ((t.drop i).take m) % md - ((charAt t i).toNat : Int) * h)
      (polyVal base ((t.drop i).take m) - ((charAt t i).toNat : Int) * base ^ (m - 1)) :=
    Int.ModEq.sub e1 (Int.ModEq.mul_left _ e2)
  have e4 : Int.ModEq md
      ((polyVal base ((t.drop i).take m) % md - ((charAt t i).toNat : Int) * h) % md)
      (polyVal base ((t.drop i).take m) - ((charAt t i).toNat : Int) * base ^ (m - 1)) :=
    Int.ModEq.trans (Int.emod_emod_of_dvd _ dvd_rfl) e3
  have e5 : Int.ModEq md
      ((polyVal base ((t.drop i).take m) % md - ((charAt t i).toNat : Int) * h) % md * base
        + ((charAt t (i + m)).toNat : Int))
      ((polyVal base ((t.drop i).take m) - ((charAt t i).toNat : Int) * base ^ (m - 1)) * base
        + ((charAt t (i + m)).toNat : Int)) :=
    Int.ModEq.add_right _ (Int.ModEq.mul_right _ e4)
  have key : (polyVal base ((t.drop i).take m)
      - ((charAt t i).toNat : Int) * base ^ (m - 1)) * base
        + ((charAt t (i + m)).toNat : Int)
      = polyVal base ((t.drop (i + 1)).take m) := by
    rw [hvi, hvi1]
    ring
  calc ((polyVal base ((t.drop i).take m) % md - ((charAt t i).toNat : Int) * h) % md * base
        + ((charAt t (i + m)).toNat : Int)) % md
      = ((polyVal base ((t.drop i).take m)
          - ((charAt t i).toNat : Int) * base ^ (m - 1)) * base
            + ((charAt t (i + m)).toNat : Int)) % md := e5
    _ = polyVal base ((t.drop (i + 1)).take m) % md := by rw [key]

theorem charAt_append_left {l l2 : List Char} {j : Nat} (hj : j < l.length) :
    charAt (l ++ l2) j = charAt l j := by
  have h1 : j < (l ++ l2).length := by simp; omega
  rw [charAt_eq_getElem _ _ h1, charAt_eq_getElem _ _ hj]
  exact (List.getElem_append_left' l2 hj).symm

theorem charAt_concat_self {l : List Char} {c : Char} :
    charAt (l ++ [c]) l.length = c := by
  have h1 : l.length < (l ++ [c]).length := by simp
  rw [charAt_eq_getElem _ _ h1]
  simp

/-- The Horner value is the polynomial `sum of ord(c) * base^k` over the
characters of `l`, highest power first. -/
theorem polyVal_eq_sum (base : Int) (l : List Char) :
    polyVal base l
      = ∑ j ∈ Finset.range l.length,
          ((charAt l j).toNat : Int) * base ^ (l.length - 1 - j) := by
  induction l using List.reverseRecOn with
  | nil => simp [polyVal]
  | append_singleton l c ih =>
    rw [polyVal_append_singleton, ih]
    simp only [List.length_append, List.length_singleton]
    rw [Finset.sum_range_succ]
    have hterm : ∀ j ∈ Finset.range l.length,
        ((charAt (l ++ [c]) j).toNat : Int) * base ^ (l.length + 1 - 1 - j)
          = (((charAt l j).toNat : Int) * base ^ (l.length - 1 - j)) * base := by
      intro j hj
      rw [Finset.mem_range] at hj
      rw [charAt_append_left hj]
      have he : l.length + 1 - 1 - j = (l.length - 1 - j) + 1 := by omega
      rw [he, pow_succ]
      ring
    rw [Finset.sum_congr rfl hterm, ← Finset.sum_mul, charAt_concat_self]
    simp

theorem rkLoop_spec {t p : List Char} {n m : Nat} {base md pH h : Int}
    (hn : n = t.length) (hm : m = p.length) (h1 : 1 ≤ m) (hmn : m ≤ n)
    (hmd : 0 < md) (hh : h = base ^ (m - 1) % md)
    (hpH : pH = polyHash base md p) :
    ∀ (count i : Nat) (tH : Int), i + count = n - m + 1 →
      (i ≤ n - m → tH = polyHash base md ((t.drop i).take m)) →
      (∀ q, q < i → ¬ occursAt t p q) →
      FirstMatchFrom t p 0 (rkLoop t p n m base md pH h count i tH) := by
  intro count
  induction count with
  | zero =>
    intro i tH hcount _ hleft
    left
    refine ⟨rfl, ?_⟩
    intro q _ hocc
    have hlen := hocc.1
    exact hleft q (by omega) hocc
  | succ cnt ih =>
    intro i tH hcount htH hleft
    have hile : i ≤ n - m := by omega
    by_cases hw : (t.drop i).take m = p
    · -- a true occurrence: the hashes agree and the direct check confirms it
      have htHeq : pH = tH := by
        rw [htH hile, hpH, hw]
      have hcond : (pH == tH && ((t.drop i).take m == p)) = true := by
        simp [htHeq, hw]
      have hret : rkLoop t p n m base md pH h (cnt + 1) i tH = (i : Int) := by
        simp [rkLoop, hcond]
      rw [hret]
      right
      refine ⟨i, rfl, by omega, ?_, fun k _ hk => hleft k hk⟩
      exact occursAt_of_window (by omega) (by rw [← hm]; exact hw)
    · have hcond : (pH == tH && ((t.drop i).take m == p)) = false := by
        simp [hw]
      have hstep : rkLoop t p n m base md pH h (cnt + 1) i tH
          = rkLoop t p n m base md pH h cnt (i + 1)
              (if i < n - m then rkRoll t m base md h i tH else tH) := by
        simp [rkLoop, hcond]
      rw [hstep]
      refine ih (i + 1) _ (by omega) ?_ ?_
      · intro hile1
        have hlt : i < n - m := by omega
        rw [if_pos hlt]
        exact rkRoll_correct hmd h1 hh (by omega) (htH hile)
      · intro q hq
        rcases Nat.lt_or_ge q i with hlt | hge
        · exact hleft q hlt
        · have hqi : q = i := by omega
          subst hqi
          intro hocc
          exact hw (by rw [hm]; exact hocc.2)

theorem rabin_karp_search_spec (t p : List Char) (base md : Int) (hmd : 0 < md) :
    FirstMatchFrom t p 0 (rabin_karp_search t p base md) := by
  unfold rabin_karp_search
  by_cases hm0 : p.length = 0
  · simp only [hm0, if_true]
    right
    refine ⟨0, rfl, le_refl 0, ?_, fun k hk hk' => by omega⟩
    rw [List.length_eq_zero] at hm0
    subst hm0
    exact ⟨by simp, by simp⟩
  · by_cases hmn : p.length > t.length
    · simp only [hm0, if_false, hmn, if_true]
      left
      refine ⟨rfl, ?_⟩
      intro k hk hocc
      have := hocc.1
      omega
    · simp only [hm0, if_false, hmn]
      exact rkLoop_spec (t := t) (p := p) (n := t.length) (m := p.length)
        rfl rfl (by omega) (by omega) hmd rfl rfl
        (t.length - p.length + 1) 0 (polyHash base md (t.take p.length))
        (by omega) (fun _ => by rw [List.drop_zero])
        (fun q hq => absurd hq (by omega))

theorem rabin_karp_search_eq_naive (t p : List Char) :
    rabin_karp_search t p = naive_search t p :=
  FirstMatchFrom_unique (rabin_karp_search_spec t p 256 1000000007 (by norm_num))
    (naive_search_spec t p)

/-! ### Binary search upper bound
(`binary_search_upper_bound` in `Task_02_binary_search.py`).  The element type
is embedded as `ℚ`: the routine only ever compares elements (`arr[mid] >= x`),
so the order is the only structure used. -/

/-- The `while left <= right` loop of `binary_search_upper_bound`.
`mid = (left + right) // 2` is Python floor division, `Int.fdiv`.  `fuel`
bounds the number of loop-body iterations (`none` = exhausted). -/
def bsLoop (arr : List ℚ) (x : ℚ) :
    Nat → Int → Int → Nat → Option ℚ → Option (Nat × Option ℚ)
  | 0, left, right, iters, ub =>
      if left ≤ right then none else some (iters, ub)
  | fuel + 1, left, right, iters, ub =>
    if left ≤ right then
      let mid := (left + right).fdiv 2
      if arr.getD mid.toNat 0 ≥ x then
        bsLoop arr x fuel left (mid - 1) (iters + 1) (some (arr.getD mid.toNat 0))
      else
        bsLoop arr x fuel (mid + 1) right (iters + 1) ub
    else some (iters, ub)

/-- `binary_search_upper_bound(arr, x)` from `Task_02_binary_search.py`:
starts with `left = 0`, `right = len(arr) - 1`, `iterations = 0`,
`upper_bound = None`.  Fuel `len(arr) + 1` is proved sufficient below. -/
def binary_search_upper_bound (arr : List ℚ) (x : ℚ) : Nat × Option ℚ :=
  (bsLoop arr x (arr.length + 1) 0 ((arr.length : Int) - 1) 0 none).getD (0, none)

theorem ratGetD_eq_getElem (l : List ℚ) (i : Nat) (h : i < l.length) :
    l.getD i 0 = l[i] := by
  simp [List.getD_eq_getElem?_getD, List.getElem?_eq_getElem h]

theorem sorted_getD_le {arr : List ℚ} (hs : arr.Sorted (· ≤ ·)) {a b : Nat}
    (hab : a ≤ b) (hb : b < arr.length) : arr.getD a 0 ≤ arr.getD b 0 := by
  rcases Nat.eq_or_lt_of_le hab with h | h
  · rw [h]
  · rw [ratGetD_eq_getElem _ _ (by omega), ratGetD_eq_getElem _ _ hb]
    exact List.pairwise_iff_getElem.mp hs a b (by omega) hb h

theorem bsLoop_spec {arr : List ℚ} {x : ℚ} (hs : arr.Sorted (· ≤ ·)) :
    ∀ (fuel : Nat) (left right : Int) (iters : Nat) (ub : Option ℚ),
      0 ≤ left → left ≤ right + 1 → right ≤ (arr.length : Int) - 1 →
      right + 1 - left ≤ (fuel : Int) →
      (∀ k : Nat, (k : Int) < left → k < arr.length → arr.getD k 0 < x) →
      ((ub = none ∧ right = (arr.length : Int) - 1) ∨
        (∃ jj : Nat, (jj : Int) = right + 1 ∧ jj < arr.length ∧
          ub = some (arr.getD jj 0) ∧ x ≤ arr.getD jj 0)) →
      ∃ iters2 ub2, bsLoop arr x fuel left right iters ub = some (iters2, ub2) ∧
        ((ub2 = none ∧ ∀ k : Nat, k < arr.length → arr.getD k 0 < x) ∨
          (∃ jj : Nat, jj < arr.length ∧ ub2 = some (arr.getD jj 0) ∧
            x ≤ arr.getD jj 0 ∧ ∀ k : Nat, k < jj → arr.getD k 0 < x)) := by
  intro fuel
  induction fuel with
  | zero =>
    intro left right iters ub h0 hlr hrlen hfuel hleft hub
    have hgt : ¬ left ≤ right := by omega
    refine ⟨iters, ub, by simp [bsLoop, hgt], ?_⟩
    rcases hub with ⟨hnone, hrt⟩ | ⟨jj, hjj, hjlen, hsome, hge⟩
    · left
      refine ⟨hnone, ?_⟩
      intro k hk
      exact hleft k (by omega) hk
    · right
      refine ⟨jj, hjlen, hsome, hge, ?_⟩
      intro k hk
      exact hleft k (by omega) (by omega)
  | succ f ih =>
    intro left right iters ub h0 hlr hrlen hfuel hleft hub
    by_cases hle : left ≤ right
    · have hmide : (left + right).fdiv 2 = (left + right) / 2 :=
        Int.fdiv_eq_ediv _ (by norm_num)
      have hml : left ≤ (left + right).fdiv 2 := by rw [hmide]; omega
      have hmr : (left + right).fdiv 2 ≤ right := by rw [hmide]; omega
      have hmlen : ((left + right).fdiv 2).toNat < arr.length := by omega
      by_cases hc : arr.getD ((left + right).fdiv 2).toNat 0 ≥ x
      · have hstep : bsLoop arr x (f + 1) left right iters ub
            = bsLoop arr x f left ((left + right).fdiv 2 - 1) (iters + 1)
                (some (arr.getD ((left + right).fdiv 2).toNat 0)) := by
          rw [bsLoop]
          simp only [hle, if_true, hc, if_true]
        rw [hstep]
        refine ih left ((left + right).fdiv 2 - 1) (iters + 1) _ h0 (by omega)
          (by omega) (by omega) hleft ?_
        right
        exact ⟨((left + right).fdiv 2).toNat, by omega, by omega, rfl, hc⟩
      · have hstep : bsLoop arr x (f + 1) left right iters ub
            = bsLoop arr x f ((left + right).fdiv 2 + 1) right (iters + 1) ub := by
          rw [bsLoop]
          simp only [hle, if_true, hc, if_false]
        rw [hstep]
        refine ih ((left + right).fdiv 2 + 1) right (iters + 1) ub (by omega)
          (by omega) (by omega) (by omega) ?_ hub
        intro k hk hklen
        have hkm : k ≤ ((left + right).fdiv 2).toNat := by omega
        have hsorted := sorted_getD_le hs hkm hmlen
        exact lt_of_le_of_lt hsorted (lt_of_not_ge hc)
    · refine ⟨iters, ub, by simp [bsLoop, hle], ?_⟩
      rcases hub with ⟨hnone, hrt⟩ | ⟨jj, hjj, hjlen, hsome, hge⟩
      · left
        refine ⟨hnone, ?_⟩
        intro k hk
        exact hleft k (by omega) hk
      · right
        refine ⟨jj, hjlen, hsome, hge, ?_⟩
        intro k hk
        exact hleft k (by omega) (by omega)

theorem binary_search_upper_bound_spec {arr : List ℚ} {x : ℚ}
    (hs : arr.Sorted (· ≤ ·)) :
    ∃ iters2 ub2, binary_search_upper_bound arr x = (iters2, ub2) ∧
      ((ub2 = none ∧ ∀ k : Nat, k < arr.length → arr.getD k 0 < x) ∨
        (∃ jj : Nat, jj < arr.length ∧ ub2 = some (arr.getD jj 0) ∧
          x ≤ arr.getD jj 0 ∧ ∀ k : Nat, k < jj → arr.getD k 0 < x)) := by
  rcases bsLoop_spec hs (arr.length + 1) 0 ((arr.length : Int) - 1) 0 none
    (le_refl 0) (by omega) (by omega) (by push_cast; omega)
    (fun k hk hk2 => absurd hk (by omega)) (Or.inl ⟨rfl, rfl⟩)
    with ⟨iters2, ub2, heq, hch⟩
  refine ⟨iters2, ub2, ?_, hch⟩
  unfold binary_search_upper_bound
  rw [heq]
  rfl

/-- The stored Horspool shift value corresponds to the last occurrence of the
character in the processed prefix. -/
theorem bmhShiftAux_last (m : Nat) :
    ∀ (l : List Char) (s : Nat) (d : Char → Option Nat) (c : Char) (k : Nat),
      k < l.length → charAt l k = c →
      (∀ k2, k < k2 → k2 < l.length → charAt l k2 ≠ c) →
      bmhShiftAux m l s d c = some (m - 1 - (s + k)) := by
  intro l
  induction l with
  | nil => intro s d c k hk; simp at hk
  | cons ch rest ih =>
    intro s d c k hk hc hlast
    match k with
    | 0 =>
      rw [charAt_cons_zero] at hc
      have hnone : ∀ k2, k2 < rest.length → charAt rest k2 ≠ c := by
        intro k2 hk2
        have := hlast (k2 + 1) (by omega) (by simp; omega)
        rwa [charAt_cons_succ] at this
      rw [bmhShiftAux, bmhShiftAux_notmem m rest (s + 1) _ c hnone]
      simp [hc]
    | k1 + 1 =>
      rw [charAt_cons_succ] at hc
      have hk1 : k1 < rest.length := by simp at hk; omega
      have hlast' : ∀ k2, k1 < k2 → k2 < rest.length → charAt rest k2 ≠ c := by
        intro k2 hk2 hk2l
        have := hlast (k2 + 1) (by omega) (by simp; omega)
        rwa [charAt_cons_succ] at this
      rw [bmhShiftAux, ih (s + 1) _ c k1 hk1 hc hlast']
      congr 2
      omega

theorem take_take_drop_iff {p : List Char} {i k : Nat} (hi : i < p.length)
    (hk : k ≤ i) :
    ((p.take (i + 1)).take k = (p.take (i + 1)).drop (i + 1 - k))
      ↔ ∀ j, j < k → charAt p j = charAt p (i + 1 - k + j) := by
  have hlen1 : ((p.take (i + 1)).take k).length = k := by
    simp only [List.length_take]
    omega
  have hlen2 : ((p.take (i + 1)).drop (i + 1 - k)).length = k := by
    simp only [List.length_drop, List.length_take]
    omega
  have hget1 : ∀ (j : Nat), j < k → ∀ (hj : j < ((p.take (i + 1)).take k).length),
      ((p.take (i + 1)).take k)[j] = charAt p j := by
    intro j hj hj1
    rw [List.getElem_take, List.getElem_take, charAt_eq_getElem p j (by omega)]
  have hget2 : ∀ (j : Nat), j < k →
      ∀ (hj : j < ((p.take (i + 1)).drop (i + 1 - k)).length),
      ((p.take (i + 1)).drop (i + 1 - k))[j] = charAt p (i + 1 - k + j) := by
    intro j hj hj2
    rw [List.getElem_drop, List.getElem_take, charAt_eq_getElem p _ (by omega)]
  constructor
  · intro he j hj
    have hj1 : j < ((p.take (i + 1)).take k).length := by omega
    have hcast := List.getElem_of_eq he hj1
    rw [hget1 j hj hj1] at hcast
    rw [hcast]
    exact hget2 j hj _
  · intro hpt
    apply List.ext_getElem (by omega)
    intro j hj1 hj2
    rw [hget1 j (by omega) hj1, hget2 j (by omega) hj2]
    exact hpt j (by omega)

/-! ### The claims -/

/-- C1: whenever any of the three matchers returns a value `r` other than the
not-found sentinel `-1`, then `0 ≤ r ≤ n - m` and `text[r : r+m]` equals the
pattern exactly; in particular `rabin_karp_search` (run with its default base
and modulus) never reports a position on hash equality alone — no false
positive ever surfaces. -/
theorem matchers_no_false_positive (t p : List Char) (r : Int)
    (hr : boyer_moore_horspool t p = r ∨ kmp_search t p = r ∨
      rabin_karp_search t p = r)
    (hnf : r ≠ -1) :
    0 ≤ r ∧ r ≤ (t.length : Int) - (p.length : Int) ∧
      (t.drop r.toNat).take p.length = p := by
  have hfm : FirstMatchFrom t p 0 r := by
    rcases hr with h | h | h
    · rw [← h]
      exact boyer_moore_horspool_spec t p
    · rw [← h]
      exact kmp_search_spec t p
    · rw [← h]
      exact rabin_karp_search_spec t p 256 1000000007 (by norm_num)
  rcases hfm with ⟨he, _⟩ | ⟨q, he, _, hocc, _⟩
  · exact absurd he hnf
  · subst he
    have h1 := hocc.1
    refine ⟨by omega, by omega, ?_⟩
    have hq : ((q : Int)).toNat = q := by omega
    rw [hq]
    exact hocc.2

/-- C2: for every (text, pattern) pair the three matchers return the same
result as the naive left-to-right leftmost-occurrence reference search. -/
theorem matchers_eq_naive (t p : List Char) :
    boyer_moore_horspool t p = naive_search t p ∧
    kmp_search t p = naive_search t p ∧
    rabin_karp_search t p = naive_search t p :=
  ⟨boyer_moore_horspool_eq_naive t p, kmp_search_eq_naive t p,
    rabin_karp_search_eq_naive t p⟩

/-- C3: for every pattern of length `m ≥ 1` the table `lps` built inside
`kmp_search` has length `m`, and entry `i` is the length of the longest
proper prefix of `pattern[0..i]` that is also a suffix of it. -/
theorem kmp_lps_table_correct (p : List Char) (hm : 1 ≤ p.length) :
    ∃ lps, kmpLps p = some lps ∧ lps.length = p.length ∧
      ∀ i, i < p.length →
        lps.getD i 0 ≤ i ∧
        (p.take (i + 1)).take (lps.getD i 0)
          = (p.take (i + 1)).drop (i + 1 - lps.getD i 0) ∧
        ∀ k, k ≤ i →
          (p.take (i + 1)).take k = (p.take (i + 1)).drop (i + 1 - k) →
          k ≤ lps.getD i 0 := by
  rcases kmpLps_spec p hm with ⟨lps, hlps, hlen, hspec⟩
  refine ⟨lps, hlps, hlen, ?_⟩
  intro i hi
  rcases hspec i hi with ⟨⟨hblt, hbpt⟩, hmax⟩
  have hle : lps.getD i 0 ≤ i := by omega
  refine ⟨hle, ?_, ?_⟩
  · exact (take_take_drop_iff hi hle).mpr hbpt
  · intro k hk hkeq
    exact hmax k ⟨by omega, (take_take_drop_iff hi hk).mp hkeq⟩

/-- C4: the Horspool shift table maps every character occurring in
`pattern[0 .. m-2]` to `m - 1 - (index of its last occurrence in that
prefix)`, and a character absent from that prefix receives the default shift
`m` when looked up with `shift.get(c, m)`. -/
theorem bmh_shift_table_correct (p : List Char) (m : Nat) (hm : m = p.length)
    (h1 : 1 ≤ m) (c : Char) :
    ((∃ i, i < m - 1 ∧ charAt p i = c) →
      ∃ i, i < m - 1 ∧ charAt p i = c ∧
        (∀ k, i < k → k < m - 1 → charAt p k ≠ c) ∧
        (bmhShift p m c).getD m = m - 1 - i) ∧
    ((∀ i, i < m - 1 → charAt p i ≠ c) → (bmhShift p m c).getD m = m) := by
  constructor
  · rintro ⟨i, hi, hc⟩
    have hP : charAt p (Nat.findGreatest (fun j => charAt p j = c) (m - 2)) = c :=
      Nat.findGreatest_spec (P := fun j => charAt p j = c) (by omega : i ≤ m - 2) hc
    have hle : Nat.findGreatest (fun j => charAt p j = c) (m - 2) ≤ m - 2 :=
      Nat.findGreatest_le (m - 2)
    have hgreat : ∀ k, Nat.findGreatest (fun j => charAt p j = c) (m - 2) < k →
        k < m - 1 → charAt p k ≠ c := by
      intro k hk1 hk2
      exact Nat.findGreatest_is_greatest (P := fun j => charAt p j = c) hk1 (by omega)
    refine ⟨Nat.findGreatest (fun j => charAt p j = c) (m - 2), by omega, hP,
      hgreat, ?_⟩
    have hlast : bmhShiftAux m p.dropLast 0 (fun _ => none) c
        = some (m - 1 - (0 + Nat.findGreatest (fun j => charAt p j = c) (m - 2))) := by
      apply bmhShiftAux_last m p.dropLast 0 _ c _
        (by simp [List.length_dropLast]; omega)
        (by rw [charAt_dropLast (by omega)]; exact hP)
      intro k2 hk2 hk2l
      rw [charAt_dropLast (by simp [List.length_dropLast] at hk2l; omega)]
      exact hgreat k2 hk2 (by simp [List.length_dropLast] at hk2l; omega)
    unfold bmhShift
    rw [hlast]
    simp
  · intro hno
    have hnone : bmhShiftAux m p.dropLast 0 (fun _ => none) c = none := by
      apply bmhShiftAux_notmem
      intro k hk
      rw [charAt_dropLast (by simp [List.length_dropLast] at hk; omega)]
      exact hno k (by simp [List.length_dropLast] at hk; omega)
    unfold bmhShift
    rw [hnone]
    rfl

/-- C5: a rolling-hash update of `rabin_karp_search` yields exactly the
polynomial hash (`sum of ord(c) · base^k`, reduced mod `mod`) of the next
text window, and the modulus-safe subtraction leaves the value normalized in
`[0, mod)`. -/
theorem rk_rolling_hash_invariant (text : List Char) (m i : Nat)
    (base md h tH : Int) (hmd : 0 < md) (h1 : 1 ≤ m)
    (hh : h = base ^ (m - 1) % md) (him : i + m < text.length)
    (htH : tH = polyHash base md ((text.drop i).take m)) :
    rkRoll text m base md h i tH
        = polyHash base md ((text.drop (i + 1)).take m) ∧
    rkRoll text m base md h i tH
        = (∑ j ∈ Finset.range m,
            ((charAt ((text.drop (i + 1)).take m) j).toNat : Int)
              * base ^ (m - 1 - j)) % md ∧
    0 ≤ rkRoll text m base md h i tH ∧
    rkRoll text m base md h i tH < md := by
  have hmain := rkRoll_correct hmd h1 hh him htH
  have hwl : ((text.drop (i + 1)).take m).length = m :=
    window_length (by omega)
  refine ⟨hmain, ?_, ?_, ?_⟩
  · rw [hmain, polyHash_eq_polyVal, polyVal_eq_sum, hwl]
  · unfold rkRoll
    exact Int.emod_nonneg _ (by omega)
  · unfold rkRoll
    exact Int.emod_lt_of_pos _ hmd

/-- C6 (as stated) is false: on a no-occurrence input the matchers return
the integer `-1`, a negative sentinel value — not `None`/absence, and not a
non-negative integer as the claimed `optional<non-negative integer>`
interface would require. -/
theorem matchers_notfound_counterexample :
    boyer_moore_horspool ['b'] ['a'] = -1 ∧ kmp_search ['b'] ['a'] = -1 ∧
    rabin_karp_search ['b'] ['a'] = -1 ∧
    boyer_moore_horspool ['b'] ['a'] < 0 := by
  refine ⟨?_, ?_, ?_, ?_⟩ <;> decide

/-- C6 amended: when the pattern does not occur in the text, each of the
three matchers returns the integer sentinel `-1` (not `None`). -/
theorem matchers_notfound (t p : List Char)
    (h : ∀ i : Nat, ¬ occursAt t p i) :
    boyer_moore_horspool t p = -1 ∧ kmp_search t p = -1 ∧
      rabin_karp_search t p = -1 := by
  have hres : ∀ r : Int, FirstMatchFrom t p 0 r → r = -1 := by
    intro r hfm
    rcases hfm with ⟨he, _⟩ | ⟨q, _, _, hocc, _⟩
    · exact he
    · exact absurd hocc (h q)
  exact ⟨hres _ (boyer_moore_horspool_spec t p), hres _ (kmp_search_spec t p),
    hres _ (rabin_karp_search_spec t p 256 1000000007 (by norm_num))⟩

/-- C7: for every text (the empty text included) each matcher returns index 0
on the empty pattern. -/
theorem matchers_empty_pattern (t : List Char) :
    boyer_moore_horspool t [] = 0 ∧ kmp_search t [] = 0 ∧
      rabin_karp_search t [] = 0 := by
  refine ⟨?_, ?_, ?_⟩ <;>
    simp [boyer_moore_horspool, kmp_search, rabin_karp_search]

/-- C8: on text "abcxabcdabxabcdabcdabcy" and pattern "abcdabcy" all three
matchers return index 15. -/
theorem matchers_concrete_scenario :
    boyer_moore_horspool
        ['a','b','c','x','a','b','c','d','a','b','x','a','b','c','d','a','b',
          'c','d','a','b','c','y']
        ['a','b','c','d','a','b','c','y'] = 15 ∧
    kmp_search
        ['a','b','c','x','a','b','c','d','a','b','x','a','b','c','d','a','b',
          'c','d','a','b','c','y']
        ['a','b','c','d','a','b','c','y'] = 15 ∧
    rabin_karp_search
        ['a','b','c','x','a','b','c','d','a','b','x','a','b','c','d','a','b',
          'c','d','a','b','c','y']
        ['a','b','c','d','a','b','c','y'] = 15 := by
  refine ⟨?_, ?_, ?_⟩ <;> decide

/-- C9: on a list sorted in ascending order, `binary_search_upper_bound`
returns a pair whose second component is the smallest element `≥ x`, or
`none` when every element is `< x`; the empty list yields `(0, none)`. -/
theorem binary_search_upper_bound_correct (arr : List ℚ) (x : ℚ)
    (hs : arr.Sorted (· ≤ ·)) :
    (arr = [] → binary_search_upper_bound arr x = (0, none)) ∧
    ((binary_search_upper_bound arr x).2 = none → ∀ y ∈ arr, y < x) ∧
    (∀ b : ℚ, (binary_search_upper_bound arr x).2 = some b →
      b ∈ arr ∧ x ≤ b ∧ ∀ y ∈ arr, x ≤ y → b ≤ y) := by
  rcases binary_search_upper_bound_spec hs with ⟨iters2, ub2, heq, hch⟩
  refine ⟨?_, ?_, ?_⟩
  · intro he
    subst he
    rfl
  · intro hnone y hy
    rw [heq] at hnone
    simp only at hnone
    subst hnone
    rcases hch with ⟨_, hall⟩ | ⟨jj, _, hsome, _, _⟩
    · rcases List.mem_iff_getElem.mp hy with ⟨k, hk, hky⟩
      have := hall k hk
      rwa [ratGetD_eq_getElem _ _ hk, hky] at this
    · exact absurd hsome (by simp)
  · intro b hb
    rw [heq] at hb
    simp only at hb
    rcases hch with ⟨hnone, _⟩ | ⟨jj, hjlen, hsome, hge, hless⟩
    · rw [hnone] at hb
      exact absurd hb (by simp)
    · rw [hsome] at hb
      have hbe : b = arr.getD jj 0 := by
        injection hb with hb'
        exact hb'.symm
      subst hbe
      refine ⟨?_, hge, ?_⟩
      · rw [ratGetD_eq_getElem _ _ hjlen]
        exact List.getElem_mem hjlen
      · intro y hy hxy
        rcases List.mem_iff_getElem.mp hy with ⟨k, hk, hky⟩
        rcases Nat.lt_or_ge k jj with hlt | hge2
        · have := hless k hlt
          rw [ratGetD_eq_getElem _ _ hk, hky] at this
          exact absurd hxy (by exact not_le.mpr this)
        · have := sorted_getD_le hs hge2 hk
          rwa [ratGetD_eq_getElem _ _ hk, hky] at this

/-- C10: every shift stored in the Horspool table is at least 1 and the
default shift is `m ≥ 1`, so the scan strictly advances and the `while` loop
exits within `n - m + 1` iterations: with fuel `n - m + 1` the loop returns a
result (never `none`), and that result is what `boyer_moore_horspool`
returns. -/
theorem bmh_termination (t p : List Char) (h1 : 1 ≤ p.length)
    (hmn : p.length ≤ t.length) :
    (∀ c, 1 ≤ (bmhShift p p.length c).getD p.length) ∧
    ∃ r, bmhLoop t p t.length p.length (bmhShift p p.length)
        (t.length - p.length + 1) 0 = some r ∧
      boyer_moore_horspool t p = r := by
  refine ⟨fun c => bmhShift_ge_one rfl h1 c, ?_⟩
  rcases bmhLoop_spec (t := t) (p := p) rfl h1 rfl hmn
    (t.length - p.length + 1) 0 (by omega) with ⟨r, hr, _⟩
  refine ⟨r, hr, ?_⟩
  have hm0 : ¬ p.length = 0 := by omega
  have hgt : ¬ p.length > t.length := by omega
  simp only [boyer_moore_horspool, hm0, if_false, hgt, hr, Option.getD_some]

/-- Witness for C1 at text "ab", pattern "b", result 1. -/
theorem matchers_no_false_positive_witness :
    (boyer_moore_horspool ['a', 'b'] ['b'] = 1 ∨ kmp_search ['a', 'b'] ['b'] = 1 ∨
      rabin_karp_search ['a', 'b'] ['b'] = 1) ∧ (1 : Int) ≠ -1 ∧
    (0 ≤ (1 : Int) ∧
      (1 : Int) ≤ (((['a', 'b'] : List Char).length : Int)
        - (((['b'] : List Char).length : Int))) ∧
      ((['a', 'b'] : List Char).drop (1 : Int).toNat).take
          (['b'] : List Char).length = ['b']) :=
  ⟨Or.inl (by decide), by decide,
    matchers_no_false_positive ['a', 'b'] ['b'] 1 (Or.inl (by decide)) (by decide)⟩

/-- Witness for C3 at pattern "aba". -/
theorem kmp_lps_table_correct_witness :
    1 ≤ (['a', 'b', 'a'] : List Char).length ∧
    (∃ lps, kmpLps ['a', 'b', 'a'] = some lps ∧
      lps.length = (['a', 'b', 'a'] : List Char).length ∧
      ∀ i, i < (['a', 'b', 'a'] : List Char).length →
        lps.getD i 0 ≤ i ∧
        ((['a', 'b', 'a'] : List Char).take (i + 1)).take (lps.getD i 0)
          = ((['a', 'b', 'a'] : List Char).take (i + 1)).drop (i + 1 - lps.getD i 0) ∧
        ∀ k, k ≤ i →
          ((['a', 'b', 'a'] : List Char).take (i + 1)).take k
            = ((['a', 'b', 'a'] : List Char).take (i + 1)).drop (i + 1 - k) →
          k ≤ lps.getD i 0) :=
  ⟨by decide, kmp_lps_table_correct ['a', 'b', 'a'] (by decide)⟩

/-- Witness for C4 at pattern "abac", shift value for the repeated
character 'a' and for the absent character 'z'. -/
theorem bmh_shift_table_correct_witness :
    (4 = (['a', 'b', 'a', 'c'] : List Char).length ∧ 1 ≤ 4) ∧
    (((∃ i, i < 4 - 1 ∧ charAt ['a', 'b', 'a', 'c'] i = 'a') →
      ∃ i, i < 4 - 1 ∧ charAt ['a', 'b', 'a', 'c'] i = 'a' ∧
        (∀ k, i < k → k < 4 - 1 → charAt ['a', 'b', 'a', 'c'] k ≠ 'a') ∧
        (bmhShift ['a', 'b', 'a', 'c'] 4 'a').getD 4 = 4 - 1 - i) ∧
    ((∀ i, i < 4 - 1 → charAt ['a', 'b', 'a', 'c'] i ≠ 'a') →
      (bmhShift ['a', 'b', 'a', 'c'] 4 'a').getD 4 = 4)) :=
  ⟨⟨by decide, by decide⟩,
    bmh_shift_table_correct ['a', 'b', 'a', 'c'] 4 (by decide) (by decide) 'a'⟩

/-- Witness for C5 at text "abc", window length 1, position 0. -/
theorem rk_rolling_hash_invariant_witness :
    ((0 : Int) < 1000000007 ∧ 1 ≤ 1 ∧
      (1 : Int) = (256 : Int) ^ (1 - 1) % 1000000007 ∧
      0 + 1 < (['a', 'b', 'c'] : List Char).length ∧
      (97 : Int) = polyHash 256 1000000007
        (((['a', 'b', 'c'] : List Char).drop 0).take 1)) ∧
    (rkRoll ['a', 'b', 'c'] 1 256 1000000007 1 0 97
        = polyHash 256 1000000007 (((['a', 'b', 'c'] : List Char).drop (0 + 1)).take 1) ∧
      rkRoll ['a', 'b', 'c'] 1 256 1000000007 1 0 97
        = (∑ j ∈ Finset.range 1,
            ((charAt (((['a', 'b', 'c'] : List Char).drop (0 + 1)).take 1) j).toNat : Int)
              * (256 : Int) ^ (1 - 1 - j)) % 1000000007 ∧
      0 ≤ rkRoll ['a', 'b', 'c'] 1 256 1000000007 1 0 97 ∧
      rkRoll ['a', 'b', 'c'] 1 256 1000000007 1 0 97 < 1000000007) :=
  ⟨⟨by decide, by decide, by decide, by decide, by decide⟩,
    rk_rolling_hash_invariant ['a', 'b', 'c'] 1 0 256 1000000007 1 97
      (by decide) (by decide) (by decide) (by decide) (by decide)⟩

/-- Witness for the amended C6 at text "b", pattern "a". -/
theorem matchers_notfound_witness :
    (∀ i : Nat, ¬ occursAt ['b'] ['a'] i) ∧
    (boyer_moore_horspool ['b'] ['a'] = -1 ∧ kmp_search ['b'] ['a'] = -1 ∧
      rabin_karp_search ['b'] ['a'] = -1) := by
  have h : ∀ i : Nat, ¬ occursAt ['b'] ['a'] i := by
    intro i hocc
    have h1 := hocc.1
    have h2 := hocc.2
    have hi : i = 0 := by simp at h1; omega
    subst hi
    exact absurd h2 (by decide)
  exact ⟨h, matchers_notfound ['b'] ['a'] h⟩

/-- Witness for C9 at the sorted list [1, 2, 3] and x = 2. -/
theorem binary_search_upper_bound_correct_witness :
    ([(1 : ℚ), 2, 3] : List ℚ).Sorted (· ≤ ·) ∧
    ((([(1 : ℚ), 2, 3] : List ℚ) = [] →
        binary_search_upper_bound [(1 : ℚ), 2, 3] 2 = (0, none)) ∧
      ((binary_search_upper_bound [(1 : ℚ), 2, 3] 2).2 = none →
        ∀ y ∈ [(1 : ℚ), 2, 3], y < 2) ∧
      (∀ b : ℚ, (binary_search_upper_bound [(1 : ℚ), 2, 3] 2).2 = some b →
        b ∈ [(1 : ℚ), 2, 3] ∧ 2 ≤ b ∧ ∀ y ∈ [(1 : ℚ), 2, 3], 2 ≤ y → b ≤ y)) :=
  ⟨by decide, binary_search_upper_bound_correct [(1 : ℚ), 2, 3] 2 (by decide)⟩

/-- Witness for C10 at text "ab", pattern "b". -/
theorem bmh_termination_witness :
    (1 ≤ (['b'] : List Char).length ∧
      (['b'] : List Char).length ≤ (['a', 'b'] : List Char).length) ∧
    ((∀ c, 1 ≤ (bmhShift ['b'] (['b'] : List Char).length c).getD
        (['b'] : List Char).length) ∧
      ∃ r, bmhLoop ['a', 'b'] ['b'] (['a', 'b'] : List Char).length
          (['b'] : List Char).length
          (bmhShift ['b'] (['b'] : List Char).length)
          ((['a', 'b'] : List Char).length - (['b'] : List Char).length + 1) 0
        = some r ∧ boyer_moore_horspool ['a', 'b'] ['b'] = r) :=
  ⟨⟨by decide, by decide⟩,
    bmh_termination ['a', 'b'] ['b'] (by decide) (by decide)⟩
